import Mathlib

/-!
ecs-template: pair parsing, glob expansion, fetch/render sequencing, SSM caches

A shallow embedding of `cmd/root.go` and `functions/main.go`.

* Go strings are modelled as lists of characters (`Str`).
* The template engine (`text/template` with the repository's `FuncMap`), the
  glob library, the go-getter client, the filesystem and the AWS services are
  external libraries: they enter the model as capability parameters.
* A Go function that can return an error or panic returns a `Res`.
-/

namespace EcsTemplate

/-- Go `string`, as a list of characters. -/
abbrev Str := List Char

/-- Go `error` values, represented by their message. -/
abbrev Err := String

/-- Outcome of a Go call that may return an error or panic. -/
inductive Res (α : Type) where
  | ok (a : α)
  | err (e : Err)
  | panic (msg : Err)
  deriving DecidableEq, Repr

/-! ## Library functions used by `parseFilePairs` -/

/-- Go `unicode.IsSpace`. -/
def isSpace (c : Char) : Bool :=
  let n := c.toNat
  (9 ≤ n && n ≤ 13) || n == 32 || n == 133 || n == 160 || n == 5760 ||
  (8192 ≤ n && n ≤ 8202) || n == 8232 || n == 8233 || n == 8239 || n == 8287 || n == 12288

/-- Go `strings.TrimSpace`: drop leading and trailing white space. -/
def trimSpace (s : Str) : Str :=
  ((s.dropWhile isSpace).reverse.dropWhile isSpace).reverse

/-- Go `strings.Split(s, ",")`: the pieces of `s` between commas (never empty). -/
def splitComma : Str → List Str
  | [] => [[]]
  | c :: cs =>
    if c = ',' then [] :: splitComma cs
    else
      match splitComma cs with
      | [] => [[c]]
      | p :: ps => (c :: p) :: ps

/-- The left template delimiter `{{` occurs in `s`. -/
def hasMarker : Str → Bool
  | [] => false
  | c :: cs =>
    (c == '{' && (match cs with
      | [] => false
      | d :: _ => d == '{')) || hasMarker cs

/-! ## `cmd/root.go`: the pair model -/

/-- The `file` struct of `cmd/root.go`. -/
structure file where
  source : Str
  dest : Str
  deriving DecidableEq, Repr

/-- First loop of `parseFilePairs`: split on commas, keep `pair[0]` and
`pair[len(pair)-1]`, each trimmed. -/
def splitPair (v : Str) : file :=
  let pair := splitComma v
  { source := trimSpace (pair.headD []), dest := trimSpace (pair.getLastD []) }

/-- Second loop of `parseFilePairs`: render source then dest of every entry in
order through `execTemplateString`, stopping at the first failure. -/
def renderPairs (execTemplateString : Str → Res Str) : List file → Res (List file)
  | [] => .ok []
  | f :: fs =>
    match execTemplateString f.source with
    | .err e => .err e
    | .panic m => .panic m
    | .ok s =>
      match execTemplateString f.dest with
      | .err e => .err e
      | .panic m => .panic m
      | .ok d =>
        match renderPairs execTemplateString fs with
        | .ok r => .ok ({ source := s, dest := d } :: r)
        | .err e => .err e
        | .panic m => .panic m

/-- Embedding of `parseFilePairs` in `cmd/root.go`. -/
def parseFilePairs (execTemplateString : Str → Res Str) (pairs : List Str) : Res (List file) :=
  renderPairs execTemplateString (pairs.map splitPair)

/-- The right template delimiter `}}` occurs in `s`. -/
def hasCloser : Str → Bool
  | [] => false
  | c :: cs =>
    (c == '}' && (match cs with
      | [] => false
      | d :: _ => d == '}')) || hasCloser cs

/-- An engine instance for evaluation, covering literal text only: text with no
`{{` marker renders to itself. A text with a marker and no `}}` at all is an
unclosed action, on which `Parse` fails and `template.Must` panics. Any other
text with a marker lies outside this instance and is reported as an error. -/
def literalEngine (s : Str) : Res Str :=
  if hasMarker s then
    if hasCloser s then .err "template: action not supported"
    else .panic "template: :1: unclosed action"
  else .ok s

/-- The pair the specification describes: render the whole declaration once,
then split the rendered text on the comma and trim each part. -/
def specRenderThenSplit (execTemplateString : Str → Res Str) (d : Str) : Res file :=
  match execTemplateString d with
  | .ok t => .ok (splitPair t)
  | .err e => .err e
  | .panic m => .panic m

/-! ## Specification-side notions for pair declarations -/

/-- Code points of the Unicode white space characters: tab, line feed, vertical
tab, form feed, carriage return, space, NEL, NBSP, and the space separators and
line/paragraph separators above Latin-1. -/
def whiteSpaceCodes : List Nat :=
  [9, 10, 11, 12, 13, 32, 133, 160, 5760, 8192, 8193, 8194, 8195, 8196, 8197, 8198, 8199,
   8200, 8201, 8202, 8232, 8233, 8239, 8287, 12288]

/-- The character is a white space character. -/
def isWhite (c : Char) : Bool := whiteSpaceCodes.contains c.toNat

/-- The text `t` is `s` trimmed of surrounding white space: `s` is `t` between
two runs of white space, and `t` neither starts nor ends with white space. -/
def IsTrimOf (t s : Str) : Prop :=
  ∃ pre post : Str, s = pre ++ t ++ post ∧ pre.all isWhite = true ∧ post.all isWhite = true ∧
    t.head?.all (fun c => !isWhite c) = true ∧ t.getLast?.all (fun c => !isWhite c) = true

/-- The texts `l` and `r` are the first and the last comma-separated piece of
the raw declaration `d`: `d` has no comma and both are `d`, or `l` is what
stands before the first comma and `r` what stands after the last one. -/
def IsFirstAndLastPiece (d l r : Str) : Prop :=
  ',' ∉ l ∧ ',' ∉ r ∧
    ((d = l ∧ r = l) ∨ d = l ++ ',' :: r ∨ ∃ mid : Str, d = l ++ ',' :: (mid ++ ',' :: r))

/-- A plain path: no comma, no template marker, no surrounding white space. -/
def IsPlainPath (q : Str) : Prop :=
  ',' ∉ q ∧ hasMarker q = false ∧ IsTrimOf q q

/-! ## `cmd/root.go`: external capabilities and program state -/

/-- The `Manifest` struct of `cmd/root.go`. -/
structure Manifest where
  Dirs : List Str
  Globs : List Str
  Files : List Str
  deriving DecidableEq, Repr

/-- The go-getter client mode held in `c.Mode`. -/
inductive ClientMode where
  | file
  | dir
  deriving DecidableEq, Repr

/-- Result of `os.Stat`, split the way `os.IsNotExist` splits it. On every
error the returned `FileInfo` is nil. -/
inductive StatResult where
  | info (perm : Nat)
  | notExist
  | otherErr (e : Err)
  deriving DecidableEq, Repr

/-- Calls made to external collaborators, in the order they are made. -/
inductive Event where
  | get (mode : ClientMode) (src dst : Str)
  | copy (src dst : Str)
  | glob (pattern : Str)
  | stat (path : Str)
  | chmod (path : Str) (perm : Nat)
  | write (path : Str) (body : Str)
  deriving DecidableEq, Repr

/-- The external collaborators of `cmd/root.go` over a filesystem/network
state `σ`. -/
structure Caps (σ : Type) where
  /-- Stands for `execTemplateString`: `text/template` with `functions.FuncMap()`,
  taken as a function of the text alone. `.panic` is `template.Must` on a parse
  failure, `.err` a failure of `Execute`. -/
  execTemplateString : Str → Res Str
  /-- Stands for `doublestar.Glob`. -/
  glob : Str → σ → Except Err (List Str)
  /-- Holds when `os.Stat(path)` succeeds and reports a directory. -/
  isLocalDir : Str → σ → Bool
  /-- Stands for `copy.Copy(src, dst)`. -/
  copy : Str → Str → σ → Option Err × σ
  /-- Stands for `c.Get()` with the given `c.Mode`, `c.Src`, `c.Dst`. -/
  get : ClientMode → Str → Str → σ → Option Err × σ
  /-- Stands for `ioutil.TempFile("", "")`, giving the new file's name. -/
  tempFile : σ → Except Err Str × σ
  /-- Stands for `ioutil.ReadFile`. -/
  readFile : Str → σ → Except Err Str
  /-- Stands for `yaml.UnmarshalStrict` into a `Manifest`. -/
  unmarshalStrict : Str → Except Err Manifest
  /-- Stands for `ioutil.WriteFile(name, body, 600)`. -/
  writeFile : Str → Str → σ → Option Err × σ
  /-- Stands for `os.Stat`. -/
  stat : Str → σ → StatResult
  /-- Stands for `os.Chmod`. -/
  chmod : Str → Nat → σ → Option Err × σ
  /-- Stands for `filepath.IsAbs`. -/
  isAbs : Str → Bool
  /-- Stands for `filepath.Join`. -/
  join : Str → Str → Str

/-- Program state: the outside world, the package variable `c.Mode`, and the
record of external calls made so far. -/
structure St (σ : Type) where
  world : σ
  mode : ClientMode
  log : List Event

/-! ## `cmd/root.go`: globs, fetching, manifests, rendering -/

/-- First loop of `parseGlobs`: expand every pattern in order, appending the
matches; the first glob error aborts. -/
def globAll {σ : Type} (caps : Caps σ) : List Str → St σ → Except Err (List Str) × St σ
  | [], st => (.ok [], st)
  | v :: vs, st =>
    let st1 : St σ := { st with log := st.log ++ [Event.glob v] }
    match caps.glob v st.world with
    | .error e => (.error e, st1)
    | .ok f =>
      match globAll caps vs st1 with
      | (.error e, st2) => (.error e, st2)
      | (.ok rest, st2) => (.ok (f ++ rest), st2)

/-- Embedding of `parseGlobs` in `cmd/root.go`. -/
def parseGlobs {σ : Type} (caps : Caps σ) (globs : List Str) (st : St σ) :
    Res (List file) × St σ :=
  match globAll caps globs st with
  | (.error e, st1) => (.err e, st1)
  | (.ok globTmp, st1) => (parseFilePairs caps.execTemplateString globTmp, st1)

/-- Loop of `fetchDirectories`. -/
def fetchDirectoriesLoop {σ : Type} (caps : Caps σ) : List file → St σ → Option Err × St σ
  | [], st => (none, st)
  | d :: ds, st =>
    if caps.isLocalDir d.source st.world then
      let r := caps.copy d.source d.dest st.world
      let st1 : St σ := { st with world := r.2, log := st.log ++ [Event.copy d.source d.dest] }
      match r.1 with
      | some e => (some e, st1)
      | none => fetchDirectoriesLoop caps ds st1
    else
      let r := caps.get st.mode d.source d.dest st.world
      let st1 : St σ :=
        { st with world := r.2, log := st.log ++ [Event.get st.mode d.source d.dest] }
      match r.1 with
      | some e => (some e, st1)
      | none => fetchDirectoriesLoop caps ds st1

/-- Embedding of `fetchDirectories` in `cmd/root.go`. -/
def fetchDirectories {σ : Type} (caps : Caps σ) (dirs : List file) (st : St σ) :
    Option Err × St σ :=
  fetchDirectoriesLoop caps dirs { st with mode := ClientMode.dir }

/-- Loop of `fetchFiles`. -/
def fetchFilesLoop {σ : Type} (caps : Caps σ) : List file → St σ → Option Err × St σ
  | [], st => (none, st)
  | f :: fs, st =>
    if f.source = f.dest then fetchFilesLoop caps fs st
    else
      let r := caps.get st.mode f.source f.dest st.world
      let st1 : St σ :=
        { st with world := r.2, log := st.log ++ [Event.get st.mode f.source f.dest] }
      match r.1 with
      | some e => (some e, st1)
      | none => fetchFilesLoop caps fs st1

/-- Embedding of `fetchFiles` in `cmd/root.go`. -/
def fetchFiles {σ : Type} (caps : Caps σ) (files : List file) (st : St σ) :
    Option Err × St σ :=
  fetchFilesLoop caps files { st with mode := ClientMode.file }

/-- Hands every pair of the list to the fetcher in file mode, in list order,
stopping at the first failure, whose error is the result. -/
def specFetchEach {σ : Type} (caps : Caps σ) : List file → St σ → Option Err × St σ
  | [], st => (none, st)
  | f :: fs, st =>
    let r := caps.get ClientMode.file f.source f.dest st.world
    let st1 : St σ :=
      { st with world := r.2, log := st.log ++ [Event.get ClientMode.file f.source f.dest] }
    match r.1 with
    | some e => (some e, st1)
    | none => specFetchEach caps fs st1

/-- Body of the loop of `parseManifests` for one manifest reference `v`. -/
def parseManifest {σ : Type} (caps : Caps σ) (v : Str) (st : St σ) :
    Res (List file) × St σ :=
  let st0 : St σ := { st with mode := ClientMode.file }
  match caps.execTemplateString v with
  | .err e => (.err e, st0)
  | .panic m => (.panic m, st0)
  | .ok v1 =>
    match caps.tempFile st0.world with
    | (.error e, w) => (.err e, { st0 with world := w })
    | (.ok tmpFile, w) =>
      let r := caps.get ClientMode.file v1 tmpFile w
      let st1 : St σ :=
        { st0 with world := r.2, log := st0.log ++ [Event.get ClientMode.file v1 tmpFile] }
      match r.1 with
      | some e => (.err e, st1)
      | none =>
        match caps.readFile tmpFile st1.world with
        | .error e => (.err e, st1)
        | .ok buff =>
          match caps.unmarshalStrict buff with
          | .error e => (.err e, st1)
          | .ok m =>
            match parseFilePairs caps.execTemplateString m.Dirs with
            | .err e => (.err e, st1)
            | .panic msg => (.panic msg, st1)
            | .ok t =>
              match fetchDirectories caps t st1 with
              | (some e, st2) => (.err e, st2)
              | (none, st2) =>
                match parseGlobs caps m.Globs st2 with
                | (.err e, st3) => (.err e, st3)
                | (.panic msg, st3) => (.panic msg, st3)
                | (.ok g, st3) =>
                  match parseFilePairs caps.execTemplateString m.Files with
                  | .err e => (.err e, st3)
                  | .panic msg => (.panic msg, st3)
                  | .ok f => (.ok (g ++ f), st3)

/-- Embedding of `parseManifests` in `cmd/root.go`: the loop over the manifest
references, appending each manifest's pairs to `files`. -/
def parseManifests {σ : Type} (caps : Caps σ) : List Str → St σ → Res (List file) × St σ
  | [], st => (.ok [], st)
  | v :: vs, st =>
    match parseManifest caps v st with
    | (.err e, st1) => (.err e, st1)
    | (.panic m, st1) => (.panic m, st1)
    | (.ok t, st1) =>
      match parseManifests caps vs st1 with
      | (.ok rest, st2) => (.ok (t ++ rest), st2)
      | (.err e, st2) => (.err e, st2)
      | (.panic m, st2) => (.panic m, st2)

/-- Embedding of `execTemplateFile` in `cmd/root.go`. -/
def execTemplateFile {σ : Type} (caps : Caps σ) (fileName : Str) (st : St σ) :
    Res Unit × St σ :=
  match caps.readFile fileName st.world with
  | .error e => (.err e, st)
  | .ok buff =>
    match caps.execTemplateString buff with
    | .err e => (.err e, st)
    | .panic m => (.panic m, st)
    | .ok body =>
      let r := caps.writeFile fileName body st.world
      let st1 : St σ := { st with world := r.2, log := st.log ++ [Event.write fileName body] }
      match r.1 with
      | some e => (.err e, st1)
      | none => (.ok (), st1)

/-- Embedding of `parseFileDestinationTemplates` in `cmd/root.go`. When
`os.Stat` fails with an error other than not-exist, `info` is nil and
`info.Mode()` dereferences it. -/
def parseFileDestinationTemplates {σ : Type} (caps : Caps σ) (pwd : Str) :
    List file → St σ → Res Unit × St σ
  | [], st => (.ok (), st)
  | v :: vs, st =>
    let sourcePath := if caps.isAbs v.source then v.source else caps.join pwd v.source
    let destPath := if caps.isAbs v.dest then v.dest else caps.join pwd v.dest
    match execTemplateFile caps v.dest st with
    | (.err e, st1) => (.err e, st1)
    | (.panic m, st1) => (.panic m, st1)
    | (.ok _, st1) =>
      if sourcePath ≠ destPath then
        let st2 : St σ := { st1 with log := st1.log ++ [Event.stat sourcePath] }
        match caps.stat sourcePath st1.world with
        | .notExist => parseFileDestinationTemplates caps pwd vs st2
        | .otherErr _ => (.panic "runtime error: invalid memory address or nil pointer dereference", st2)
        | .info perm =>
          let r := caps.chmod destPath perm st2.world
          parseFileDestinationTemplates caps pwd vs
            { st2 with world := r.2, log := st2.log ++ [Event.chmod destPath perm] }
      else parseFileDestinationTemplates caps pwd vs st1

/-- The event recorded when the fetcher is handed the pair `f` in file mode. -/
def fetchEvent (f : file) : Event := Event.get ClientMode.file f.source f.dest

/-- The event `e` is the fetch of the directory pair `d`: a recursive copy, or
a fetcher call in directory mode. -/
def IsDirFetchOf (e : Event) (d : file) : Prop :=
  e = Event.copy d.source d.dest ∨ e = Event.get ClientMode.dir d.source d.dest

/-- One manifest resolved as the specification orders it: the reference is
rendered, the manifest fetched to a scratch file and decoded; its `dirs` are
parsed and every one of them is fetched (calls `dirCalls`, one per entry, in
order); only then is every glob expanded, against the world the directory
fetches left behind (matches `found`, per pattern in order); the result holds
one pair per match, in match order, in-place for every match that is a plain
path, followed by the pairs of `files`. -/
def ManifestResolved {σ : Type} (caps : Caps σ) (v : Str) (st : St σ) (files : List file)
    (st' : St σ) : Prop :=
  ∃ (v1 tmpFile : Str) (w1 : σ) (buff : Str) (m : Manifest) (dirs : List file)
    (dirCalls : List Event) (found : List (List Str)) (g f : List file),
    caps.execTemplateString v = .ok v1 ∧
    caps.tempFile st.world = (.ok tmpFile, w1) ∧
    (caps.get ClientMode.file v1 tmpFile w1).1 = none ∧
    caps.readFile tmpFile (caps.get ClientMode.file v1 tmpFile w1).2 = .ok buff ∧
    caps.unmarshalStrict buff = .ok m ∧
    parseFilePairs caps.execTemplateString m.Dirs = .ok dirs ∧
    (fetchDirectories caps dirs
        { world := (caps.get ClientMode.file v1 tmpFile w1).2, mode := ClientMode.file,
          log := st.log ++ [Event.get ClientMode.file v1 tmpFile] }).1 = none ∧
    (fetchDirectories caps dirs
        { world := (caps.get ClientMode.file v1 tmpFile w1).2, mode := ClientMode.file,
          log := st.log ++ [Event.get ClientMode.file v1 tmpFile] }).2.world = st'.world ∧
    List.Forall₂ IsDirFetchOf dirCalls dirs ∧
    List.Forall₂ (fun pat r => caps.glob pat st'.world = .ok r) m.Globs found ∧
    List.Forall₂ (fun (p : file) (q : Str) => IsPlainPath q → p = { source := q, dest := q })
      g found.flatten ∧
    parseFilePairs caps.execTemplateString m.Files = .ok f ∧
    files = g ++ f ∧
    st'.log = st.log ++ [Event.get ClientMode.file v1 tmpFile] ++ dirCalls
      ++ m.Globs.map Event.glob

/-- The manifests resolved one after the other in caller order, each starting
in the state the previous one left; the result is the concatenation of the
per-manifest results. -/
inductive ManifestsResolved {σ : Type} (caps : Caps σ) :
    List Str → St σ → List file → St σ → Prop where
  | nil (st : St σ) : ManifestsResolved caps [] st [] st
  | cons (v : Str) (vs : List Str) (st st1 st2 : St σ) (t rest : List file) :
      ManifestResolved caps v st t st1 →
      ManifestsResolved caps vs st1 rest st2 →
      ManifestsResolved caps (v :: vs) st (t ++ rest) st2

/-! ## `functions/main.go`: the SSM/KMS template functions and their caches -/

/-- Go `map[string]V` as an association list with one entry per key. -/
abbrev GoMap (V : Type) := List (Str × V)

/-- Go `m[k] = v`. -/
def mapSet {V : Type} (k : Str) (v : V) (m : GoMap V) : GoMap V :=
  (k, v) :: m.filter (fun e => e.1 != k)

/-- Go `val, ok := m[k]`. -/
def mapGet {V : Type} (k : Str) (m : GoMap V) : Option V :=
  m.lookup k

/-- Requests sent to the AWS services. -/
inductive AwsCall where
  | getParameter (name : Str) (withDecryption : Bool)
  | getParametersByPath (path : Str) (recursive withDecryption : Bool)
  | decrypt (blob : Str)
  deriving DecidableEq, Repr

/-- The services behind `functions/main.go` as they answer at the moment of a
call; `J` is the type of decoded JSON objects. -/
structure Aws (J : Type) where
  /-- Stands for `newAwsSession`, which may return an error or panic (`session.Must`). -/
  newAwsSession : Res Unit
  /-- Stands for `ssmSvc.GetParameter`, giving `*resp.Parameter.Value`. -/
  getParameter : Str → Bool → Except Err Str
  /-- Stands for `ssmSvc.GetParametersByPathPages`: the pages of (name, value)
  entries for path, recursive flag and decryption flag. -/
  getParametersByPathPages : Str → Bool → Bool → Except Err (List (List (Str × Str)))
  /-- Stands for `base64.StdEncoding.DecodeString`. -/
  base64Decode : Str → Except Err Str
  /-- Stands for `kmsSvc.Decrypt`, giving `string(resp.Plaintext)`. -/
  decrypt : Str → Except Err Str
  /-- Stands for `json.Unmarshal` into a `map[string]interface{}`. -/
  jsonUnmarshal : Str → Except Err J

/-- The package variables of `functions/main.go`, and the record of requests
sent so far. -/
structure Fn where
  ssmSvc : Bool
  kmsSvc : Bool
  ssmCache : GoMap Str
  ssmPathCache : GoMap (GoMap Str)
  kmsCache : GoMap Str
  calls : List AwsCall
  deriving DecidableEq, Repr

/-- Embedding of `bootstrapClients`: `none` when the clients are ready; a
failure is what the caller panics with. -/
def bootstrapClients {J : Type} (aws : Aws J) (st : Fn) : Option Err × Fn :=
  if !st.ssmSvc || !st.kmsSvc then
    match aws.newAwsSession with
    | .err e => (some e, st)
    | .panic m => (some m, st)
    | .ok _ => (none, { st with ssmSvc := true, kmsSvc := true })
  else (none, st)

/-- Embedding of `ssmValue` in `functions/main.go`. -/
def ssmValue {J : Type} (aws : Aws J) (key : Str) (isEncrypted : Bool) (st : Fn) :
    Res Str × Fn :=
  match bootstrapClients aws st with
  | (some e, st1) => (.panic e, st1)
  | (none, st1) =>
    match mapGet key st1.ssmCache with
    | some val => (.ok val, st1)
    | none =>
      let st2 : Fn := { st1 with calls := st1.calls ++ [AwsCall.getParameter key isEncrypted] }
      match aws.getParameter key isEncrypted with
      | .error e => (.panic e, st2)
      | .ok value => (.ok value, { st2 with ssmCache := mapSet key value st2.ssmCache })

/-- Embedding of `ssmJSON` in `functions/main.go`. -/
def ssmJSON {J : Type} (aws : Aws J) (key : Str) (isEncrypted : Bool) (st : Fn) :
    Res J × Fn :=
  match bootstrapClients aws st with
  | (some e, st1) => (.panic e, st1)
  | (none, st1) =>
    match ssmValue aws key isEncrypted st1 with
    | (.err e, st2) => (.err e, st2)
    | (.panic m, st2) => (.panic m, st2)
    | (.ok data, st2) =>
      match aws.jsonUnmarshal data with
      | .error e => (.panic e, st2)
      | .ok m => (.ok m, st2)

/-- The loop `for _, v := range objects { m[*v.Name] = *v.Value }` of `ssmPath`. -/
def collectParams : List (Str × Str) → GoMap Str → GoMap Str
  | [], m => m
  | (name, value) :: rest, m => collectParams rest (mapSet name value m)

/-- Embedding of `ssmPath` in `functions/main.go`. -/
def ssmPath {J : Type} (aws : Aws J) (path : Str) (isEncrypted recursive : Bool) (st : Fn) :
    Res (GoMap Str) × Fn :=
  match bootstrapClients aws st with
  | (some e, st1) => (.panic e, st1)
  | (none, st1) =>
    match mapGet path st1.ssmPathCache with
    | some val => (.ok val, st1)
    | none =>
      let st2 : Fn :=
        { st1 with calls := st1.calls ++ [AwsCall.getParametersByPath path recursive isEncrypted] }
      match aws.getParametersByPathPages path recursive isEncrypted with
      | .error e => (.panic e, st2)
      | .ok pages =>
        let m := collectParams pages.flatten []
        (.ok m, { st2 with ssmPathCache := mapSet path m st2.ssmPathCache })

/-- Embedding of `kmsValue` in `functions/main.go`. -/
def kmsValue {J : Type} (aws : Aws J) (cipherText : Str) (st : Fn) : Res Str × Fn :=
  match bootstrapClients aws st with
  | (some e, st1) => (.panic e, st1)
  | (none, st1) =>
    match mapGet cipherText st1.kmsCache with
    | some val => (.ok val, st1)
    | none =>
      match aws.base64Decode cipherText with
      | .error e => (.panic e, st1)
      | .ok blob =>
        let st2 : Fn := { st1 with calls := st1.calls ++ [AwsCall.decrypt blob] }
        match aws.decrypt blob with
        | .error e => (.panic e, st2)
        | .ok plain => (.ok plain, { st2 with kmsCache := mapSet cipherText plain st2.kmsCache })

/-- One use of a template function of `FuncMap`. -/
inductive TemplateCall where
  | ssm (key : Str) (isEncrypted : Bool)
  | ssmJSON (key : Str) (isEncrypted : Bool)
  | ssmPath (path : Str) (isEncrypted recursive : Bool)
  | kms (cipherText : Str)
  deriving DecidableEq, Repr

/-- The package state after one template-function call, whatever its outcome. -/
def afterCall {J : Type} (aws : Aws J) (c : TemplateCall) (st : Fn) : Fn :=
  match c with
  | .ssm k d => (ssmValue aws k d st).2
  | .ssmJSON k d => (ssmJSON aws k d st).2
  | .ssmPath p d r => (ssmPath aws p d r st).2
  | .kms c => (kmsValue aws c st).2

/-- The package state after a sequence of template-function calls, each made
against the services as they answer at that moment. -/
def afterCalls {J : Type} : List (Aws J × TemplateCall) → Fn → Fn
  | [], st => st
  | (aws, c) :: rest, st => afterCalls rest (afterCall aws c st)

/-- The package state at process start. -/
def Fn.init : Fn :=
  { ssmSvc := false, kmsSvc := false, ssmCache := [], ssmPathCache := [], kmsCache := [],
    calls := [] }

/-! ## Concrete instances for evaluation -/

/-- The declaration `{{" "}}a`. -/
def declSpaceAction : Str := "\x7b\x7b\" \"\x7d\x7da".toList

/-- The declaration `{{"a,b"}}`. -/
def declCommaAction : Str := "\x7b\x7b\"a,b\"\x7d\x7d".toList

/-- A fragment of `text/template` for evaluation. Marker-free text renders to
itself. An action holding a string constant prints the constant, so
`{{" "}}a` renders to ` a` and `{{"a,b"}}` renders to `a,b`. The text `{{"a` is
an unterminated quoted string: `Parse` fails and `template.Must` panics. Other
texts with a marker lie outside the fragment and are reported as errors. -/
def sampleEngine (s : Str) : Res Str :=
  if s = declSpaceAction then .ok " a".toList
  else if s = declCommaAction then .ok "a,b".toList
  else if s = "\x7b\x7b\"a".toList then .panic "template: :1: unterminated quoted string"
  else if hasMarker s then .err "template: action outside the fragment"
  else .ok s

/-- A small filesystem: file contents by path, and the paths on which `stat`
fails with a permission error. -/
structure World where
  files : List (Str × Str)
  denied : List Str
  deriving DecidableEq, Repr

/-- A line-based stand-in for the YAML decoder: a line `d X` adds `X` to
`Dirs`, `g X` to `Globs`, `f X` to `Files`; any other non-empty line is an
unknown field. -/
def decodeLines : List Str → Except Err Manifest
  | [] => .ok { Dirs := [], Globs := [], Files := [] }
  | l :: ls =>
    match decodeLines ls with
    | .error e => .error e
    | .ok m =>
      match l with
      | [] => .ok m
      | 'd' :: ' ' :: x => .ok { m with Dirs := x :: m.Dirs }
      | 'g' :: ' ' :: x => .ok { m with Globs := x :: m.Globs }
      | 'f' :: ' ' :: x => .ok { m with Files := x :: m.Files }
      | _ => .error "yaml: unmarshal errors"

/-- Splits a text into its lines. -/
def splitLines : Str → List Str
  | [] => [[]]
  | c :: cs =>
    if c = '\n' then [] :: splitLines cs
    else
      match splitLines cs with
      | [] => [[c]]
      | p :: ps => (c :: p) :: ps

/-- The pieces of `s` between occurrences of `sep`. -/
def pieces (sep : Char) : Str → List Str
  | [] => [[]]
  | c :: cs =>
    if c = sep then [] :: pieces sep cs
    else
      match pieces sep cs with
      | [] => [[c]]
      | p :: ps => (c :: p) :: ps

/-- One step of path cleaning over the elements kept so far (last first): empty
and `.` elements are dropped, `..` removes the element before it, stays at the
root of a rooted path, and is kept in front of a relative one. -/
def cleanStep (rooted : Bool) (kept : List Str) (el : Str) : List Str :=
  if el = [] ∨ el = ['.'] then kept
  else if el = ['.', '.'] then
    match kept with
    | [] => if rooted then [] else [el]
    | k :: ks => if k = ['.', '.'] then el :: k :: ks else ks
  else el :: kept

/-- Unix `filepath.Clean`. -/
def cleanPath (q : Str) : Str :=
  let rooted := q.head? == some '/'
  let kept := ((pieces '/' q).foldl (cleanStep rooted) []).reverse
  let body := List.intercalate ['/'] kept
  if rooted then '/' :: body else if body = [] then ['.'] else body

/-- Collaborators over `World`, for evaluation: literal-only templates, a glob
that understands a trailing `*` within one directory, a fetcher that copies a
file by path over its destination, recursive directory copy by path prefix, and
temporary files with fresh names. -/
def demoCaps : Caps World where
  execTemplateString := literalEngine
  glob := fun pat w =>
    match pat.getLast? with
    | some '*' =>
      let pre := pat.dropLast
      .ok ((w.files.map Prod.fst).filter
        (fun q => pre.isPrefixOf q && !((q.drop pre.length).contains '/')))
    | _ => .ok ((w.files.map Prod.fst).filter (fun q => q == pat))
  isLocalDir := fun src w => w.files.any (fun e => (src ++ ['/']).isPrefixOf e.1)
  copy := fun src dst w =>
    (none, { w with files := w.files ++ w.files.filterMap (fun e =>
      if (src ++ ['/']).isPrefixOf e.1 then some (dst ++ e.1.drop src.length, e.2) else none) })
  get := fun _ src dst w =>
    match w.files.lookup src with
    | some body =>
      (none, { w with files := w.files.filter (fun e => e.1 != dst) ++ [(dst, body)] })
    | none => (some "source not found", w)
  tempFile := fun w =>
    let name := "/tmp/".toList ++ List.replicate w.files.length '0'
    (.ok name, { w with files := w.files ++ [(name, [])] })
  readFile := fun q w =>
    match w.files.lookup q with
    | some body => .ok body
    | none => .error "no such file or directory"
  unmarshalStrict := fun buff => decodeLines (splitLines buff)
  writeFile := fun q body w =>
    (none, { w with files := (q, body) :: w.files.filter (fun e => e.1 != q) })
  stat := fun q w =>
    if q ∈ w.denied then .otherErr "permission denied"
    else if w.files.any (fun e => e.1 == q) then .info 420
    else .notExist
  chmod := fun _ _ w => (none, w)
  isAbs := fun q => q.head? == some '/'
  join := fun a b =>
    if a = [] then (if b = [] then [] else cleanPath b)
    else if b = [] then cleanPath a
    else cleanPath (a ++ '/' :: b)

/-- A program state over `w` with an empty call record. -/
def startAt (w : World) : St World :=
  { world := w, mode := ClientMode.file, log := [] }

/-- A manifest with one directory pair and one glob over its destination, as in
`TestParseManifest`. -/
def demoManifestText : Str := "d src,out\ng out/*".toList

/-- A second manifest, with one glob and one file pair. -/
def secondManifestText : Str := "g src/*\nf src/a.tmpl,dst.tmpl".toList

/-- A world holding two manifests and a source directory with one template. -/
def demoWorld : World :=
  { files := [("m.yml".toList, demoManifestText), ("n.yml".toList, secondManifestText),
              ("src/a.tmpl".toList, "x".toList)],
    denied := [] }

/-- A world holding the manifest and a source directory whose one file has a
comma in its name. -/
def commaWorld : World :=
  { files := [("m.yml".toList, demoManifestText), ("src/a,b.tmpl".toList, "x".toList)],
    denied := [] }

/-- A world holding the manifest only: the directory source `src` is missing. -/
def bareWorld : World :=
  { files := [("m.yml".toList, demoManifestText)], denied := [] }

/-- A world in which `stat` on `/locked/cfg` fails with a permission error and
the destination `/out/cfg` holds literal text. -/
def lockedWorld : World :=
  { files := [("/out/cfg".toList, "port=80".toList)], denied := ["/locked/cfg".toList] }

/-- A parameter store that answers with the ciphertext unless decryption is
requested, and lists one parameter under every path. -/
def demoAws : Aws Unit where
  newAwsSession := .ok ()
  getParameter := fun _ withDecryption =>
    .ok (if withDecryption then "plain".toList else "cipher".toList)
  getParametersByPathPages := fun path _ withDecryption =>
    .ok [[(path ++ "/key".toList, if withDecryption then "plain".toList else "cipher".toList)]]
  base64Decode := fun c => .ok c
  decrypt := fun _ => .ok "plain".toList
  jsonUnmarshal := fun _ => .ok ()

/-- A parameter store that can be reached and refuses every `GetParameter`. -/
def deniedAws : Aws Unit where
  newAwsSession := .ok ()
  getParameter := fun _ _ => .error "AccessDeniedException"
  getParametersByPathPages := fun _ _ _ => .ok []
  base64Decode := fun c => .ok c
  decrypt := fun _ => .error "AccessDeniedException"
  jsonUnmarshal := fun _ => .ok ()

/-- A parameter store on which every request fails. -/
def downAws : Aws Unit where
  newAwsSession := .err "no region"
  getParameter := fun _ _ => .error "unreachable"
  getParametersByPathPages := fun _ _ _ => .error "unreachable"
  base64Decode := fun _ => .error "illegal base64 data"
  decrypt := fun _ => .error "unreachable"
  jsonUnmarshal := fun _ => .error "invalid character"

/-! # Theorems -/

/-! ## Facts about the string library model -/

theorem splitComma_ne_nil (s : Str) : splitComma s ≠ [] := by
  cases s with
  | nil => simp [splitComma]
  | cons c cs =>
    unfold splitComma
    split
    · simp
    · split <;> simp

theorem splitComma_of_not_mem (s : Str) (h : ',' ∉ s) : splitComma s = [s] := by
  induction s with
  | nil => rfl
  | cons c cs ih =>
    have hc : c ≠ ',' := fun e => h (by simp [e])
    have hcs : ',' ∉ cs := fun m => h (List.mem_cons_of_mem _ m)
    simp [splitComma, hc, ih hcs]

theorem splitComma_append_comma (l r : Str) (h : ',' ∉ l) :
    splitComma (l ++ ',' :: r) = l :: splitComma r := by
  induction l with
  | nil => simp [splitComma]
  | cons c cs ih =>
    have hc : c ≠ ',' := fun e => h (by simp [e])
    have hcs : ',' ∉ cs := fun m => h (List.mem_cons_of_mem _ m)
    simp [splitComma, hc, ih hcs]

theorem hasMarker_iff (s : Str) :
    hasMarker s = true ↔ ∃ a b, s = a ++ '{' :: '{' :: b := by
  induction s with
  | nil => simp [hasMarker]
  | cons c cs ih =>
    constructor
    · intro h
      simp only [hasMarker, Bool.or_eq_true, Bool.and_eq_true, beq_iff_eq] at h
      rcases h with ⟨hc, h2⟩ | h
      · cases cs with
        | nil => simp at h2
        | cons d ds =>
          simp only [beq_iff_eq] at h2
          exact ⟨[], ds, by simp [hc, h2]⟩
      · obtain ⟨a, b, hab⟩ := ih.mp h
        exact ⟨c :: a, b, by simp [hab]⟩
    · rintro ⟨a, b, hab⟩
      cases a with
      | nil =>
        simp only [List.nil_append, List.cons.injEq] at hab
        obtain ⟨rfl, rfl⟩ := hab
        simp [hasMarker]
      | cons x a =>
        simp only [List.cons_append, List.cons.injEq] at hab
        obtain ⟨rfl, rfl⟩ := hab
        have : hasMarker (a ++ '{' :: '{' :: b) = true := ih.mpr ⟨a, b, rfl⟩
        simp [hasMarker, this]

theorem hasMarker_of_part {t s : Str} (h : t <:+: s) (ht : hasMarker t = true) :
    hasMarker s = true := by
  obtain ⟨x, y, rfl⟩ := h
  obtain ⟨a, b, rfl⟩ := (hasMarker_iff t).mp ht
  exact (hasMarker_iff _).mpr ⟨x ++ a, b ++ y, by simp⟩

theorem trimSpace_part (s : Str) : trimSpace s <:+: s := by
  have h1 : trimSpace s <+: s.dropWhile isSpace := List.rdropWhile_prefix _ _
  exact h1.isInfix.trans (List.dropWhile_suffix _).isInfix

theorem hasMarker_false_of_part {t s : Str} (h : t <:+: s) (hs : hasMarker s = false) :
    hasMarker t = false := by
  cases ht : hasMarker t with
  | false => rfl
  | true => rw [hasMarker_of_part h ht] at hs; cases hs

theorem parseFilePairs_single (tmpl : Str → Res Str) (d s t : Str)
    (hs : tmpl (splitPair d).source = .ok s) (ht : tmpl (splitPair d).dest = .ok t) :
    parseFilePairs tmpl [d] = .ok [{ source := s, dest := t }] := by
  simp [parseFilePairs, renderPairs, hs, ht]

theorem splitPair_of_not_mem (d : Str) (h : ',' ∉ d) :
    splitPair d = { source := trimSpace d, dest := trimSpace d } := by
  simp [splitPair, splitComma_of_not_mem d h]

theorem splitPair_append_comma (l r : Str) (hl : ',' ∉ l) (hr : ',' ∉ r) :
    splitPair (l ++ ',' :: r) = { source := trimSpace l, dest := trimSpace r } := by
  simp [splitPair, splitComma_append_comma l r hl, splitComma_of_not_mem r hr]

theorem count_comma_split {l r : Str} (h : (l ++ ',' :: r).count ',' ≤ 1) :
    ',' ∉ l ∧ ',' ∉ r := by
  rw [List.count_append, List.count_cons_self] at h
  have h1 : l.count ',' = 0 := by omega
  have h2 : r.count ',' = 0 := by omega
  exact ⟨List.count_eq_zero.mp h1, List.count_eq_zero.mp h2⟩

theorem isSpace_eq_isWhite (c : Char) : isSpace c = isWhite c := by
  rw [Bool.eq_iff_iff]
  simp only [isSpace, isWhite, whiteSpaceCodes, List.contains_eq_any_beq, List.any_cons,
    List.any_nil, Bool.or_false, Bool.or_eq_true, Bool.and_eq_true, beq_iff_eq, decide_eq_true_eq]
  omega

theorem isSpace_funext : isSpace = isWhite := funext isSpace_eq_isWhite

theorem dropWhile_white_append (pre u : Str) (hpre : pre.all isWhite = true)
    (hu : u.head?.all (fun c => !isWhite c) = true) : (pre ++ u).dropWhile isWhite = u := by
  induction pre with
  | nil =>
    cases u with
    | nil => rfl
    | cons a u =>
      have ha : isWhite a = false := by simpa using hu
      simp [List.dropWhile, ha]
  | cons c pre ih =>
    simp only [List.all_cons, Bool.and_eq_true] at hpre
    simp [List.dropWhile, hpre.1, ih hpre.2]

/-- Trimming is determined by the specification-side description. -/
theorem IsTrimOf.eq_trimSpace {t s : Str} (h : IsTrimOf t s) : trimSpace s = t := by
  obtain ⟨pre, post, rfl, hpre, hpost, hhead, hlast⟩ := h
  simp only [trimSpace, isSpace_funext]
  cases t with
  | nil =>
    have hall : (pre ++ post).dropWhile isWhite = [] := by
      rw [List.dropWhile_eq_nil_iff]
      intro c hc
      rcases List.mem_append.mp hc with hc | hc
      · exact List.all_eq_true.mp hpre c hc
      · exact List.all_eq_true.mp hpost c hc
    simp [hall]
  | cons a t =>
    have h1 : (pre ++ (a :: t) ++ post).dropWhile isWhite = (a :: t) ++ post := by
      rw [List.append_assoc]
      exact dropWhile_white_append pre _ hpre (by simpa using hhead)
    rw [h1, List.reverse_append]
    have h2 : (post.reverse ++ (a :: t).reverse).dropWhile isWhite = (a :: t).reverse := by
      apply dropWhile_white_append
      · simpa using hpost
      · rw [List.head?_reverse]; exact hlast
    rw [h2, List.reverse_reverse]

/-- The code's trimming meets the specification-side description. -/
theorem trimSpace_isTrimOf (s : Str) : IsTrimOf (trimSpace s) s := by
  simp only [trimSpace, isSpace_funext]
  refine ⟨s.takeWhile isWhite, (((s.dropWhile isWhite).reverse).takeWhile isWhite).reverse,
    ?_, ?_, ?_, ?_, ?_⟩
  · have h1 : (((s.dropWhile isWhite).reverse).dropWhile isWhite).reverse
        ++ (((s.dropWhile isWhite).reverse).takeWhile isWhite).reverse
        = s.dropWhile isWhite := by
      rw [← List.reverse_append, List.takeWhile_append_dropWhile, List.reverse_reverse]
    rw [List.append_assoc, h1, List.takeWhile_append_dropWhile]
  · rw [List.all_eq_true]
    intro c hc
    exact List.mem_takeWhile_imp hc
  · rw [List.all_eq_true]
    intro c hc
    exact List.mem_takeWhile_imp (List.mem_reverse.mp hc)
  · have hpre : (((s.dropWhile isWhite).reverse).dropWhile isWhite).reverse
        <+: s.dropWhile isWhite := List.rdropWhile_prefix _ _
    obtain ⟨post, hpost⟩ := hpre
    have hd := List.head?_dropWhile_not isWhite s
    rw [← hpost] at hd
    cases ht : (((s.dropWhile isWhite).reverse).dropWhile isWhite).reverse with
    | nil => rfl
    | cons a t =>
      rw [ht] at hd
      simpa using hd
  · rw [List.getLast?_reverse]
    have hd := List.head?_dropWhile_not isWhite (s.dropWhile isWhite).reverse
    cases ht : ((s.dropWhile isWhite).reverse).dropWhile isWhite with
    | nil => rfl
    | cons a t =>
      rw [ht] at hd
      simpa using hd

/-- C1: for a declaration `d` with no template marker and at most one comma,
`parseFilePairs [d]` succeeds with exactly one pair. Without a comma, source and
dest are both `d` trimmed of surrounding white space; with `d = l ++ "," ++ r`,
source is `l` trimmed and dest is `r` trimmed, each on its own. The engine is
any engine that renders marker-free text to itself. -/
theorem parseFilePairs_plain (tmpl : Str → Res Str)
    (hlit : ∀ s, hasMarker s = false → tmpl s = .ok s)
    (d : Str) (hm : hasMarker d = false) (hc : d.count ',' ≤ 1) :
    (',' ∉ d →
      ∃ s, IsTrimOf s d ∧ parseFilePairs tmpl [d] = .ok [{ source := s, dest := s }]) ∧
    (∀ l r, d = l ++ ',' :: r →
      ∃ s t, IsTrimOf s l ∧ IsTrimOf t r ∧
        parseFilePairs tmpl [d] = .ok [{ source := s, dest := t }]) := by
  constructor
  · intro h
    have ht : hasMarker (trimSpace d) = false := hasMarker_false_of_part (trimSpace_part d) hm
    refine ⟨trimSpace d, trimSpace_isTrimOf d, ?_⟩
    apply parseFilePairs_single <;> simp [splitPair_of_not_mem d h, hlit _ ht]
  · rintro l r rfl
    obtain ⟨hl, hr⟩ := count_comma_split hc
    have hli : l <:+: l ++ ',' :: r := (List.prefix_append l _).isInfix
    have hri : r <:+: l ++ ',' :: r :=
      ((List.suffix_cons ',' r).trans (List.suffix_append l _)).isInfix
    have h1 : hasMarker (trimSpace l) = false :=
      hasMarker_false_of_part ((trimSpace_part l).trans hli) hm
    have h2 : hasMarker (trimSpace r) = false :=
      hasMarker_false_of_part ((trimSpace_part r).trans hri) hm
    refine ⟨trimSpace l, trimSpace r, trimSpace_isTrimOf l, trimSpace_isTrimOf r, ?_⟩
    apply parseFilePairs_single <;> simp [splitPair_append_comma l r hl hr, hlit _ h1, hlit _ h2]

theorem literalEngine_literal (s : Str) (h : hasMarker s = false) : literalEngine s = .ok s := by
  simp [literalEngine, h]

/-- Witness for C1 at the declarations ` /foo , /bar   ` and ` /foo ` of
`TestParseFilePairs`: the pairs are (`/foo`, `/bar`) and (`/foo`, `/foo`). -/
theorem parseFilePairs_plain_witness :
    parseFilePairs literalEngine [" /foo , /bar   ".toList]
      = .ok [{ source := "/foo".toList, dest := "/bar".toList }] ∧
    parseFilePairs literalEngine [" /foo ".toList]
      = .ok [{ source := "/foo".toList, dest := "/foo".toList }] := by
  constructor
  · obtain ⟨s, t, hs, ht, h⟩ :=
      (parseFilePairs_plain literalEngine literalEngine_literal " /foo , /bar   ".toList
        (by decide) (by decide)).2 " /foo ".toList " /bar   ".toList (by decide)
    have e1 : s = "/foo".toList := by rw [← hs.eq_trimSpace]; decide
    have e2 : t = "/bar".toList := by rw [← ht.eq_trimSpace]; decide
    rw [h, e1, e2]
  · obtain ⟨s, hs, h⟩ :=
      (parseFilePairs_plain literalEngine literalEngine_literal " /foo ".toList
        (by decide) (by decide)).1 (by decide)
    have e1 : s = "/foo".toList := by rw [← hs.eq_trimSpace]; decide
    rw [h, e1]

/-- C2 (counterexample): rendering the whole declaration and then splitting
differs from what `parseFilePairs` does. For `{{" "}}a` the whole-string reading
gives the pair (`a`, `a`) while the code gives (` a`, ` a`); for `{{"a,b"}}` the
whole-string reading gives (`a`, `b`) while the code splits inside the action
and panics on the unparsable half. -/
theorem parseFilePairs_not_render_then_split :
    specRenderThenSplit sampleEngine declSpaceAction
        = .ok { source := "a".toList, dest := "a".toList } ∧
    parseFilePairs sampleEngine [declSpaceAction]
        = .ok [{ source := " a".toList, dest := " a".toList }] ∧
    specRenderThenSplit sampleEngine declCommaAction
        = .ok { source := "a".toList, dest := "b".toList } ∧
    parseFilePairs sampleEngine [declCommaAction]
        = .panic "template: :1: unterminated quoted string" := by
  refine ⟨by decide, by decide, by decide, by decide⟩

theorem splitComma_length (s : Str) : (splitComma s).length = s.count ',' + 1 := by
  induction s with
  | nil => rfl
  | cons c cs ih =>
    by_cases hc : c = ','
    · subst hc
      simp [splitComma, ih]
    · have hne : (c == ',') = false := by simpa using hc
      simp only [splitComma, hc, if_false, List.count_cons, hne]
      cases hs : splitComma cs with
      | nil => exact absurd hs (splitComma_ne_nil cs)
      | cons q qs =>
        rw [hs] at ih
        simpa using ih

theorem splitComma_getLast (x r : Str) (hr : ',' ∉ r) :
    (splitComma (x ++ ',' :: r)).getLast? = some r := by
  induction x with
  | nil => simp [splitComma, splitComma_of_not_mem r hr]
  | cons c cs ih =>
    have hlen := splitComma_length (cs ++ ',' :: r)
    rw [List.count_append, List.count_cons_self] at hlen
    cases hs : splitComma (cs ++ ',' :: r) with
    | nil => exact absurd hs (splitComma_ne_nil _)
    | cons q qs =>
      rw [hs] at ih hlen
      cases qs with
      | nil => simp at hlen
      | cons q2 qs2 =>
        rw [List.getLast?_cons_cons] at ih
        by_cases hc : c = ','
        · rw [List.cons_append, splitComma, if_pos hc, hs, List.getLast?_cons_cons,
            List.getLast?_cons_cons]
          exact ih
        · rw [List.cons_append, splitComma, if_neg hc, hs]
          simp only []
          rw [List.getLast?_cons_cons]
          exact ih

theorem splitPair_of_pieces (d l r : Str) (h : IsFirstAndLastPiece d l r) :
    splitPair d = { source := trimSpace l, dest := trimSpace r } := by
  obtain ⟨hl, hr, h | h | ⟨mid, h⟩⟩ := h
  · obtain ⟨rfl, rfl⟩ := h
    exact splitPair_of_not_mem _ hl
  · subst h
    exact splitPair_append_comma l r hl hr
  · subst h
    have hlast := splitComma_getLast mid r hr
    cases hs : splitComma (mid ++ ',' :: r) with
    | nil => exact absurd hs (splitComma_ne_nil _)
    | cons q qs =>
      rw [hs] at hlast
      simp only [splitPair, splitComma_append_comma l _ hl, hs, List.headD_cons,
        List.getLastD_cons]
      rw [List.getLastD_eq_getLast?]
      cases qs with
      | nil =>
        simp only [List.getLast?_singleton, Option.some.injEq] at hlast
        simp [hlast]
      | cons q2 qs2 =>
        rw [List.getLast?_cons_cons] at hlast
        rw [hlast]
        rfl

/-- C2 (amended): `parseFilePairs [d]` looks for commas in the raw declaration.
With `l` its first and `r` its last comma-separated piece, it trims `l` and `r`
and only then renders each trimmed piece on its own; when both render, the pair
holds the two rendered texts. -/
theorem parseFilePairs_renders_after_split (tmpl : Str → Res Str) (d l r l0 r0 s t : Str)
    (hp : IsFirstAndLastPiece d l r) (hl : IsTrimOf l0 l) (hr : IsTrimOf r0 r)
    (hs : tmpl l0 = .ok s) (ht : tmpl r0 = .ok t) :
    parseFilePairs tmpl [d] = .ok [{ source := s, dest := t }] := by
  have hsp := splitPair_of_pieces d l r hp
  rw [hl.eq_trimSpace, hr.eq_trimSpace] at hsp
  apply parseFilePairs_single <;> simp [hsp, hs, ht]

/-- Witness for the amended C2 at the declaration `{{" "}}a , b`: the comma of
the raw text separates `{{" "}}a ` from ` b`; the trimmed pieces `{{" "}}a` and
`b` render to ` a` and `b`. Rendering the whole declaration first would give
the pair (`a`, `b`). -/
theorem parseFilePairs_renders_after_split_witness :
    parseFilePairs sampleEngine [declSpaceAction ++ " , b".toList]
      = .ok [{ source := " a".toList, dest := "b".toList }] :=
  parseFilePairs_renders_after_split sampleEngine (declSpaceAction ++ " , b".toList)
    (declSpaceAction ++ " ".toList) " b".toList declSpaceAction "b".toList
    " a".toList "b".toList
    ⟨by decide, by decide, Or.inr (Or.inl (by decide))⟩
    ⟨[], " ".toList, by decide, by decide, by decide, by decide, by decide⟩
    ⟨" ".toList, [], by decide, by decide, by decide, by decide, by decide⟩
    (by decide) (by decide)

theorem trimSpace_of_all_space (d : Str) (h : ∀ c ∈ d, isSpace c = true) : trimSpace d = [] := by
  have : d.dropWhile isSpace = [] := by
    rw [List.dropWhile_eq_nil_iff]
    exact h
  simp [trimSpace, this]

theorem not_comma_mem_of_all_space (d : Str) (h : ∀ c ∈ d, isSpace c = true) : ',' ∉ d := by
  intro hm
  have := h _ hm
  revert this
  decide

/-- C9 (counterexample): declarations that are empty after trimming are
accepted; the result is the pair of two empty strings, not an error. -/
theorem parseFilePairs_blank_accepted :
    parseFilePairs literalEngine ["".toList] = .ok [{ source := [], dest := [] }] ∧
    parseFilePairs literalEngine ["  \t ".toList] = .ok [{ source := [], dest := [] }] := by
  refine ⟨by decide, by decide⟩

/-- C9 (amended): for every declaration made only of white space (the empty
string included), `parseFilePairs [d]` succeeds with the pair whose source and
dest are the empty string, as soon as the engine renders the empty text to
itself. -/
theorem parseFilePairs_blank (tmpl : Str → Res Str) (hempty : tmpl [] = .ok [])
    (d : Str) (hd : ∀ c ∈ d, isSpace c = true) :
    parseFilePairs tmpl [d] = .ok [{ source := [], dest := [] }] := by
  have h1 := splitPair_of_not_mem d (not_comma_mem_of_all_space d hd)
  rw [trimSpace_of_all_space d hd] at h1
  apply parseFilePairs_single <;> simp [h1, hempty]

/-- Witness for the amended C9 at a declaration of three blanks. -/
theorem parseFilePairs_blank_witness :
    parseFilePairs literalEngine ["   ".toList] = .ok [{ source := [], dest := [] }] :=
  parseFilePairs_blank literalEngine (by decide) "   ".toList (by decide)

/-- C3 (code at the failing input): a glob match whose path holds a comma is
split by `parseFilePairs`; the pair is not in-place. -/
theorem parseGlobs_comma_path :
    (demoCaps.glob "out/*".toList
        { files := [("out/a,b.tmpl".toList, "x".toList)], denied := [] })
      = .ok ["out/a,b.tmpl".toList] ∧
    (parseGlobs demoCaps ["out/*".toList]
        (startAt { files := [("out/a,b.tmpl".toList, "x".toList)], denied := [] })).1
      = .ok [{ source := "out/a".toList, dest := "b.tmpl".toList }] := by
  refine ⟨by rfl, by decide⟩

/-! ## Fetching -/

theorem fetchFilesLoop_eq_spec {σ : Type} (caps : Caps σ) (files : List file) :
    ∀ st : St σ, st.mode = ClientMode.file →
      fetchFilesLoop caps files st
        = specFetchEach caps (files.filter (fun f => decide (f.source ≠ f.dest))) st := by
  induction files with
  | nil => intro st _; simp [fetchFilesLoop, specFetchEach]
  | cons f fs ih =>
    intro st hmode
    by_cases h : f.source = f.dest
    · simp [fetchFilesLoop, h, ih st hmode]
    · simp only [fetchFilesLoop, h, if_false, ne_eq, not_false_eq_true, decide_True,
        List.filter_cons_of_pos, specFetchEach, hmode]
      cases hr : (caps.get ClientMode.file f.source f.dest st.world).1 with
      | some e => rfl
      | none =>
        simp only []
        exact ih _ rfl

theorem specFetchEach_log {σ : Type} (caps : Caps σ) (l : List file) :
    ∀ st : St σ, ∃ called : List file,
      called <+: l ∧
      (specFetchEach caps l st).2.log = st.log ++ called.map fetchEvent ∧
      ((specFetchEach caps l st).1 = none → called = l) := by
  induction l with
  | nil => intro st; exact ⟨[], by simp [specFetchEach]⟩
  | cons f fs ih =>
    intro st
    simp only [specFetchEach]
    cases hr : (caps.get ClientMode.file f.source f.dest st.world).1 with
    | some e =>
      exact ⟨[f], by simp [fetchEvent]⟩
    | none =>
      obtain ⟨called, hpre, hlog, hall⟩ := ih
        { st with world := (caps.get ClientMode.file f.source f.dest st.world).2,
                  log := st.log ++ [Event.get ClientMode.file f.source f.dest] }
      refine ⟨f :: called, ?_, ?_, ?_⟩
      · exact (List.prefix_cons_inj f).mpr hpre
      · simp only [hlog]
        simp [fetchEvent]
      · intro hn
        rw [hall hn]

/-- C4: `fetchFiles` behaves exactly as handing the pairs with
`source ≠ dest`, in list order, to the fetcher in file mode until the first
failure, whose error it returns. The recorded fetcher calls form a prefix of
that sub-list, none of them is an in-place pair, and when no error is returned
every pair of the sub-list was fetched. -/
theorem fetchFiles_skips_in_place {σ : Type} (caps : Caps σ) (files : List file) (st : St σ) :
    fetchFiles caps files st
      = specFetchEach caps (files.filter (fun f => decide (f.source ≠ f.dest)))
          { st with mode := ClientMode.file } ∧
    ∃ called : List file,
      called <+: files.filter (fun f => decide (f.source ≠ f.dest)) ∧
      (fetchFiles caps files st).2.log = st.log ++ called.map fetchEvent ∧
      (∀ f ∈ called, f.source ≠ f.dest) ∧
      ((fetchFiles caps files st).1 = none →
        called = files.filter (fun f => decide (f.source ≠ f.dest))) := by
  have heq : fetchFiles caps files st
      = specFetchEach caps (files.filter (fun f => decide (f.source ≠ f.dest)))
          { st with mode := ClientMode.file } :=
    fetchFilesLoop_eq_spec caps files _ rfl
  refine ⟨heq, ?_⟩
  obtain ⟨called, hpre, hlog, hall⟩ :=
    specFetchEach_log caps (files.filter (fun f => decide (f.source ≠ f.dest)))
      { st with mode := ClientMode.file }
  refine ⟨called, hpre, ?_, ?_, ?_⟩
  · rw [heq]; exact hlog
  · intro f hf
    have := List.mem_filter.mp (hpre.subset hf)
    simpa using this.2
  · rw [heq]; exact hall

/-! ## Manifests -/

theorem fetchDirectoriesLoop_log {σ : Type} (caps : Caps σ) (dirs : List file) :
    ∀ st st' : St σ, st.mode = ClientMode.dir →
      fetchDirectoriesLoop caps dirs st = (none, st') →
      ∃ dirCalls, List.Forall₂ IsDirFetchOf dirCalls dirs ∧ st'.log = st.log ++ dirCalls := by
  induction dirs with
  | nil =>
    intro st st' _ h
    simp only [fetchDirectoriesLoop, Prod.mk.injEq, true_and] at h
    exact ⟨[], List.Forall₂.nil, by simp [h]⟩
  | cons d ds ih =>
    intro st st' hmode h
    simp only [fetchDirectoriesLoop] at h
    split at h
    · split at h
      · simp at h
      · obtain ⟨dc, hf, hlog⟩ := ih _ st' (by simpa using hmode) h
        refine ⟨Event.copy d.source d.dest :: dc, List.Forall₂.cons (Or.inl rfl) hf, ?_⟩
        simp [hlog]
    · split at h
      · simp at h
      · obtain ⟨dc, hf, hlog⟩ := ih _ st' (by simpa using hmode) h
        refine ⟨Event.get ClientMode.dir d.source d.dest :: dc,
          List.Forall₂.cons (Or.inr rfl) hf, ?_⟩
        simp [hlog, hmode]

theorem globAll_spec {σ : Type} (caps : Caps σ) (globs : List Str) :
    ∀ (st st' : St σ) (ms : List Str), globAll caps globs st = (.ok ms, st') →
      st'.world = st.world ∧ st'.log = st.log ++ globs.map Event.glob ∧
      ∃ found, List.Forall₂ (fun pat r => caps.glob pat st.world = .ok r) globs found ∧
        ms = found.flatten := by
  induction globs with
  | nil =>
    intro st st' ms h
    simp only [globAll, Prod.mk.injEq, Except.ok.injEq] at h
    obtain ⟨rfl, rfl⟩ := h
    exact ⟨rfl, by simp, [], List.Forall₂.nil, rfl⟩
  | cons v vs ih =>
    intro st st' ms h
    simp only [globAll] at h
    split at h
    · simp at h
    · rename_i f hf
      split at h
      · simp at h
      · rename_i rest st2 hrest
        simp only [Prod.mk.injEq, Except.ok.injEq] at h
        obtain ⟨rfl, rfl⟩ := h
        obtain ⟨hw, hlog, found, hm, rfl⟩ := ih _ _ _ hrest
        refine ⟨hw, by simp [hlog], f :: found, List.Forall₂.cons hf hm, by simp⟩

theorem parseGlobs_ok {σ : Type} (caps : Caps σ) (globs : List Str) (st st' : St σ)
    (g : List file) (h : parseGlobs caps globs st = (.ok g, st')) :
    st'.world = st.world ∧ st'.log = st.log ++ globs.map Event.glob ∧
    ∃ found, List.Forall₂ (fun pat r => caps.glob pat st.world = .ok r) globs found ∧
      parseFilePairs caps.execTemplateString found.flatten = .ok g := by
  simp only [parseGlobs] at h
  split at h
  · simp at h
  · rename_i globTmp st1 hg
    simp only [Prod.mk.injEq] at h
    obtain ⟨hp, rfl⟩ := h
    obtain ⟨hw, hlog, found, hf, rfl⟩ := globAll_spec caps globs _ _ _ hg
    exact ⟨hw, hlog, found, hf, hp⟩

theorem fetchDirectories_log {σ : Type} (caps : Caps σ) (dirs : List file) (st st' : St σ)
    (h : fetchDirectories caps dirs st = (none, st')) :
    ∃ dirCalls, List.Forall₂ IsDirFetchOf dirCalls dirs ∧ st'.log = st.log ++ dirCalls :=
  fetchDirectoriesLoop_log caps dirs { st with mode := ClientMode.dir } st' rfl h

theorem renderPairs_ok (tmpl : Str → Res Str) (fs : List file) :
    ∀ g : List file, renderPairs tmpl fs = .ok g →
      List.Forall₂ (fun (p f : file) => tmpl f.source = .ok p.source ∧ tmpl f.dest = .ok p.dest)
        g fs := by
  induction fs with
  | nil =>
    intro g h
    simp only [renderPairs, Res.ok.injEq] at h
    subst h
    exact List.Forall₂.nil
  | cons f fs ih =>
    intro g h
    simp only [renderPairs] at h
    split at h
    · simp at h
    · simp at h
    · rename_i src hsrc
      split at h
      · simp at h
      · simp at h
      · rename_i dst hdst
        split at h
        · rename_i rest hrest
          simp only [Res.ok.injEq] at h
          subst h
          exact List.Forall₂.cons ⟨hsrc, hdst⟩ (ih rest hrest)
        · simp at h
        · simp at h

theorem parseFilePairs_plain_paths (tmpl : Str → Res Str)
    (hlit : ∀ s, hasMarker s = false → tmpl s = .ok s) (qs : List Str) (g : List file)
    (h : parseFilePairs tmpl qs = .ok g) :
    List.Forall₂ (fun (p : file) (q : Str) => IsPlainPath q → p = { source := q, dest := q })
      g qs := by
  have h1 := renderPairs_ok tmpl (qs.map splitPair) g h
  rw [List.forall₂_map_right_iff] at h1
  refine h1.imp ?_
  intro p q hpq hplain
  obtain ⟨hc, hm, ht⟩ := hplain
  have hsp : splitPair q = { source := q, dest := q } := by
    rw [splitPair_of_not_mem q hc, ht.eq_trimSpace]
  rw [hsp] at hpq
  simp only [hlit q hm, Res.ok.injEq] at hpq
  cases p
  simp only [file.mk.injEq]
  exact ⟨hpq.1.symm, hpq.2.symm⟩

theorem parseManifest_ok {σ : Type} (caps : Caps σ)
    (hlit : ∀ s, hasMarker s = false → caps.execTemplateString s = .ok s)
    (v : Str) (st st' : St σ)
    (files : List file) (h : parseManifest caps v st = (.ok files, st')) :
    ManifestResolved caps v st files st' := by
  simp only [parseManifest] at h
  split at h
  · simp at h
  · simp at h
  · rename_i v1 hv
    split at h
    · simp at h
    · rename_i tmpFile w1 htmp
      split at h
      · simp at h
      · rename_i hget
        split at h
        · simp at h
        · rename_i buff hbuff
          split at h
          · simp at h
          · rename_i m hm
            split at h
            · simp at h
            · simp at h
            · rename_i dirs hdirs
              split at h
              · simp at h
              · rename_i st2 hfd
                split at h
                · simp at h
                · simp at h
                · rename_i g st3 hpg
                  split at h
                  · simp at h
                  · simp at h
                  · rename_i f hf
                    simp only [Prod.mk.injEq, Res.ok.injEq] at h
                    obtain ⟨rfl, rfl⟩ := h
                    obtain ⟨dc, hdc, hlog2⟩ := fetchDirectories_log caps dirs _ _ hfd
                    obtain ⟨hw3, hlog3, found, hfound, hpf⟩ := parseGlobs_ok caps _ _ _ _ hpg
                    refine ⟨v1, tmpFile, w1, buff, m, dirs, dc, found, g, f, hv, htmp, hget,
                      hbuff, hm, hdirs, ?_, ?_, hdc, ?_, ?_, hf, rfl, ?_⟩
                    · rw [hfd]
                    · rw [hfd, hw3]
                    · rw [hw3]; exact hfound
                    · exact parseFilePairs_plain_paths _ hlit _ _ hpf
                    · rw [hlog3, hlog2]

/-- C5 (amended): whenever `parseManifests` returns a list, the manifests were
resolved in caller order; within each manifest every `dirs` entry was fetched
before any glob was expanded, the globs were matched against the world left by
those fetches, and the returned list is, per manifest in order, one pair per
glob match (in-place for every match that is a plain path) followed by the
pairs of the `files` declarations; no pair of `dirs` is added to it. The engine
is any engine that renders marker-free text to itself. -/
theorem parseManifests_ordering {σ : Type} (caps : Caps σ)
    (hlit : ∀ s, hasMarker s = false → caps.execTemplateString s = .ok s)
    (manifests : List Str) :
    ∀ (st st' : St σ) (files : List file),
      parseManifests caps manifests st = (.ok files, st') →
      ManifestsResolved caps manifests st files st' := by
  induction manifests with
  | nil =>
    intro st st' files h
    simp only [parseManifests, Prod.mk.injEq, Res.ok.injEq] at h
    obtain ⟨rfl, rfl⟩ := h
    exact ManifestsResolved.nil st
  | cons v vs ih =>
    intro st st' files h
    simp only [parseManifests] at h
    split at h
    · simp at h
    · simp at h
    · rename_i t st1 ht
      split at h
      · rename_i rest st2 hrest
        simp only [Prod.mk.injEq, Res.ok.injEq] at h
        obtain ⟨rfl, rfl⟩ := h
        exact ManifestsResolved.cons v vs st st1 st2 t rest
          (parseManifest_ok caps hlit v st st1 t ht) (ih st1 st2 rest hrest)
      · simp at h
      · simp at h

/-- Witness for the amended C5 on two manifests: the first copies `src` to `out`
and globs `out/*`, the second globs `src/*` and declares one file pair. The
pairs come out in caller order, and the recorded calls show each manifest's
directory fetch ahead of its glob expansion. -/
theorem parseManifests_ordering_witness :
    ManifestsResolved demoCaps ["m.yml".toList, "n.yml".toList] (startAt demoWorld)
      [{ source := "out/a.tmpl".toList, dest := "out/a.tmpl".toList },
       { source := "src/a.tmpl".toList, dest := "src/a.tmpl".toList },
       { source := "src/a.tmpl".toList, dest := "dst.tmpl".toList }]
      (parseManifests demoCaps ["m.yml".toList, "n.yml".toList] (startAt demoWorld)).2 ∧
    (parseManifests demoCaps ["m.yml".toList, "n.yml".toList] (startAt demoWorld)).2.log
      = [Event.get ClientMode.file "m.yml".toList "/tmp/000".toList,
         Event.copy "src".toList "out".toList,
         Event.glob "out/*".toList,
         Event.get ClientMode.file "n.yml".toList "/tmp/00000".toList,
         Event.glob "src/*".toList] :=
  ⟨parseManifests_ordering demoCaps literalEngine_literal ["m.yml".toList, "n.yml".toList]
      (startAt demoWorld)
      (parseManifests demoCaps ["m.yml".toList, "n.yml".toList] (startAt demoWorld)).2
      [{ source := "out/a.tmpl".toList, dest := "out/a.tmpl".toList },
       { source := "src/a.tmpl".toList, dest := "src/a.tmpl".toList },
       { source := "src/a.tmpl".toList, dest := "dst.tmpl".toList }] (by rfl),
    by decide⟩

/-- C5 (counterexample): the manifest is fetched and decoded in both runs. In
the first, the directory fetch fails and `parseManifests` returns that error
instead of a list. In the second, the glob matches `out/a,b.tmpl` and the
returned glob-derived pair is not in-place. -/
theorem parseManifests_not_as_stated :
    demoCaps.unmarshalStrict demoManifestText
      = .ok { Dirs := ["src,out".toList], Globs := ["out/*".toList], Files := [] } ∧
    (parseManifests demoCaps ["m.yml".toList] (startAt bareWorld)).1
      = .err "source not found" ∧
    (parseManifests demoCaps ["m.yml".toList] (startAt commaWorld)).1
      = .ok [{ source := "out/a".toList, dest := "b.tmpl".toList }] := by
  refine ⟨by rfl, by decide, by decide⟩

/-! ## Rendering destinations -/

/-- C10 (code at the failing input): the destination reads, renders and writes,
`stat` on the source fails with a permission error, and
`parseFileDestinationTemplates` panics on the nil `info`. -/
theorem parseFileDestinationTemplates_stat_error_panics :
    demoCaps.stat "/locked/cfg".toList lockedWorld = .otherErr "permission denied" ∧
    (execTemplateFile demoCaps "/out/cfg".toList (startAt lockedWorld)).1 = .ok () ∧
    (parseFileDestinationTemplates demoCaps "/work".toList
        [{ source := "/locked/cfg".toList, dest := "/out/cfg".toList }]
        (startAt lockedWorld)).1
      = .panic "runtime error: invalid memory address or nil pointer dereference" := by
  refine ⟨by decide, by decide, by decide⟩

/-! ## The SSM caches -/

theorem mapGet_mapSet_self {V : Type} (k : Str) (v : V) (m : GoMap V) :
    mapGet k (mapSet k v m) = some v := by
  simp [mapGet, mapSet, List.lookup]

theorem lookup_filter_ne {V : Type} (k q : Str) (hne : k ≠ q) (m : GoMap V) :
    List.lookup k (m.filter (fun e => e.1 != q)) = List.lookup k m := by
  induction m with
  | nil => rfl
  | cons e es ih =>
    obtain ⟨a, b⟩ := e
    by_cases ha : a = q
    · subst ha
      have hka : (k == a) = false := by simpa using hne
      simp [List.filter, List.lookup, hka, ih]
    · have : (a != q) = true := by simpa using ha
      simp only [List.filter, this, List.lookup]
      cases hk : k == a <;> simp [ih]

theorem mapGet_mapSet_ne {V : Type} (k q : Str) (hne : k ≠ q) (v : V) (m : GoMap V) :
    mapGet k (mapSet q v m) = mapGet k m := by
  have hkq : (k == q) = false := by simpa using hne
  simp only [mapGet, mapSet, List.lookup, hkq]
  exact lookup_filter_ne k q hne m

theorem bootstrapClients_ready {J : Type} (aws : Aws J) (st : Fn)
    (h1 : st.ssmSvc = true) (h2 : st.kmsSvc = true) : bootstrapClients aws st = (none, st) := by
  simp [bootstrapClients, h1, h2]

theorem bootstrapClients_none {J : Type} (aws : Aws J) (st st1 : Fn)
    (h : bootstrapClients aws st = (none, st1)) :
    st1.ssmSvc = true ∧ st1.kmsSvc = true ∧ st1.ssmCache = st.ssmCache ∧
    st1.ssmPathCache = st.ssmPathCache ∧ st1.kmsCache = st.kmsCache ∧ st1.calls = st.calls := by
  simp only [bootstrapClients] at h
  split at h
  · split at h
    · simp at h
    · simp at h
    · simp only [Prod.mk.injEq, true_and] at h
      subst h
      simp
  · rename_i hready
    simp only [Prod.mk.injEq, true_and] at h
    subst h
    simp only [Bool.or_eq_true, Bool.not_eq_true', not_or, Bool.not_eq_false] at hready
    simp [hready.1, hready.2]

theorem ssmValue_hit {J : Type} (aws : Aws J) (k : Str) (d : Bool) (st : Fn) (v : Str)
    (h1 : st.ssmSvc = true) (h2 : st.kmsSvc = true) (hc : mapGet k st.ssmCache = some v) :
    ssmValue aws k d st = (.ok v, st) := by
  simp [ssmValue, bootstrapClients_ready aws st h1 h2, hc]

theorem ssmValue_ok {J : Type} (aws : Aws J) (k : Str) (d : Bool) (st st1 : Fn) (v : Str)
    (h : ssmValue aws k d st = (.ok v, st1)) :
    st1.ssmSvc = true ∧ st1.kmsSvc = true ∧ mapGet k st1.ssmCache = some v ∧
    (mapGet k st.ssmCache = none → st1.calls = st.calls ++ [AwsCall.getParameter k d]) := by
  simp only [ssmValue] at h
  split at h
  · simp at h
  · rename_i st0 hb
    obtain ⟨b1, b2, b3, _, _, b6⟩ := bootstrapClients_none aws st st0 hb
    split at h
    · rename_i val hval
      simp only [Prod.mk.injEq, Res.ok.injEq] at h
      obtain ⟨rfl, rfl⟩ := h
      refine ⟨b1, b2, hval, ?_⟩
      intro hmiss
      rw [b3, hmiss] at hval
      cases hval
    · split at h
      · simp at h
      · simp only [Prod.mk.injEq, Res.ok.injEq] at h
        obtain ⟨rfl, rfl⟩ := h
        refine ⟨b1, b2, mapGet_mapSet_self _ _ _, ?_⟩
        intro _
        simp [b6]

/-- C6 (counterexample): two successive `ssmValue k true` do not always send
exactly one request. When `ssmValue k false` ran before, both calls are served
from the cache: no request is sent and the ciphertext is returned, although the
store answers `plain` to the decrypting request. When the store refuses the
first request, the second call asks again: two requests are sent. -/
theorem ssmValue_not_always_one_request :
    demoAws.getParameter "db/pass".toList true = .ok "plain".toList ∧
    (ssmValue demoAws "db/pass".toList true
        (ssmValue demoAws "db/pass".toList false Fn.init).2).1 = .ok "cipher".toList ∧
    (ssmValue demoAws "db/pass".toList true
        (ssmValue demoAws "db/pass".toList true
          (ssmValue demoAws "db/pass".toList false Fn.init).2).2).2.calls
      = (ssmValue demoAws "db/pass".toList false Fn.init).2.calls ∧
    (ssmValue deniedAws "db/pass".toList true Fn.init).1 = .panic "AccessDeniedException" ∧
    (ssmValue deniedAws "db/pass".toList true
        (ssmValue deniedAws "db/pass".toList true Fn.init).2).2.calls
      = [AwsCall.getParameter "db/pass".toList true,
         AwsCall.getParameter "db/pass".toList true] := by
  refine ⟨by rfl, by decide, by decide, by decide, by decide⟩

/-- C6 (amended): when a first `ssmValue k d` on a key not yet cached returns a value, a
second `ssmValue k d` returns the same value and leaves the state untouched,
whatever the parameter store would answer by then; over the two calls exactly
one `GetParameter` request was sent. -/
theorem ssmValue_memoized {J : Type} (aws1 aws2 : Aws J) (k : Str) (d : Bool) (st st1 : Fn)
    (v : Str) (hmiss : mapGet k st.ssmCache = none)
    (h1 : ssmValue aws1 k d st = (.ok v, st1)) :
    ssmValue aws2 k d st1 = (.ok v, st1) ∧
    (ssmValue aws2 k d st1).2.calls = st.calls ++ [AwsCall.getParameter k d] := by
  obtain ⟨r1, r2, hc, hcalls⟩ := ssmValue_ok aws1 k d st st1 v h1
  have h2 := ssmValue_hit aws2 k d st1 v r1 r2 hc
  exact ⟨h2, by rw [h2]; exact hcalls hmiss⟩

/-- Witness for C6: first call against a working store, second against a store
on which every request fails. -/
theorem ssmValue_memoized_witness :
    ssmValue downAws "db/pass".toList true (ssmValue demoAws "db/pass".toList true Fn.init).2
      = (.ok "plain".toList, (ssmValue demoAws "db/pass".toList true Fn.init).2) ∧
    (ssmValue downAws "db/pass".toList true
        (ssmValue demoAws "db/pass".toList true Fn.init).2).2.calls
      = Fn.init.calls ++ [AwsCall.getParameter "db/pass".toList true] :=
  ssmValue_memoized demoAws downAws "db/pass".toList true Fn.init
    (ssmValue demoAws "db/pass".toList true Fn.init).2 "plain".toList (by decide) (by decide)

/-- C7 (counterexample): after `ssmValue k false` cached the ciphertext, the
call `ssmValue k true` returns that cached ciphertext, although the store would
answer `plain` for the decrypting request, and no second request is sent. -/
theorem ssmValue_ignores_decrypt_flag :
    (ssmValue demoAws "db/pass".toList false Fn.init).1 = .ok "cipher".toList ∧
    demoAws.getParameter "db/pass".toList true = .ok "plain".toList ∧
    (ssmValue demoAws "db/pass".toList true
        (ssmValue demoAws "db/pass".toList false Fn.init).2).1 = .ok "cipher".toList ∧
    (ssmValue demoAws "db/pass".toList true
        (ssmValue demoAws "db/pass".toList false Fn.init).2).2.calls
      = [AwsCall.getParameter "db/pass".toList false] := by
  refine ⟨by decide, by rfl, by decide, by decide⟩

/-- C7 (amended): the single-value cache is keyed by the lookup key alone. After
`ssmValue k d1` returned a value, `ssmValue k d2` returns that same value for
every flag `d2` and sends no request (the state, request record included, is
unchanged). -/
theorem ssmValue_keyed_by_key_alone {J : Type} (aws1 aws2 : Aws J) (k : Str) (d1 d2 : Bool)
    (st st1 : Fn) (v : Str) (h1 : ssmValue aws1 k d1 st = (.ok v, st1)) :
    ssmValue aws2 k d2 st1 = (.ok v, st1) := by
  obtain ⟨r1, r2, hc, _⟩ := ssmValue_ok aws1 k d1 st st1 v h1
  exact ssmValue_hit aws2 k d2 st1 v r1 r2 hc

/-- Witness for the amended C7 with flags `false` then `true`. -/
theorem ssmValue_keyed_by_key_alone_witness :
    ssmValue demoAws "db/pass".toList true (ssmValue demoAws "db/pass".toList false Fn.init).2
      = (.ok "cipher".toList, (ssmValue demoAws "db/pass".toList false Fn.init).2) :=
  ssmValue_keyed_by_key_alone demoAws demoAws "db/pass".toList false true Fn.init
    (ssmValue demoAws "db/pass".toList false Fn.init).2 "cipher".toList (by decide)

theorem ssmPath_hit {J : Type} (aws : Aws J) (p : Str) (d r : Bool) (st : Fn) (m : GoMap Str)
    (h1 : st.ssmSvc = true) (h2 : st.kmsSvc = true) (hc : mapGet p st.ssmPathCache = some m) :
    ssmPath aws p d r st = (.ok m, st) := by
  simp [ssmPath, bootstrapClients_ready aws st h1 h2, hc]

theorem ssmPath_ok {J : Type} (aws : Aws J) (p : Str) (d r : Bool) (st st1 : Fn) (m : GoMap Str)
    (h : ssmPath aws p d r st = (.ok m, st1)) :
    st1.ssmSvc = true ∧ st1.kmsSvc = true ∧ mapGet p st1.ssmPathCache = some m := by
  simp only [ssmPath] at h
  split at h
  · simp at h
  · rename_i st0 hb
    obtain ⟨b1, b2, _, _, _, _⟩ := bootstrapClients_none aws st st0 hb
    split at h
    · rename_i val hval
      simp only [Prod.mk.injEq, Res.ok.injEq] at h
      obtain ⟨rfl, rfl⟩ := h
      exact ⟨b1, b2, hval⟩
    · split at h
      · simp at h
      · simp only [Prod.mk.injEq, Res.ok.injEq] at h
        obtain ⟨rfl, rfl⟩ := h
        exact ⟨b1, b2, mapGet_mapSet_self _ _ _⟩

theorem ssmValue_keeps_path {J : Type} (aws : Aws J) (k : Str) (d : Bool) (st : Fn) (p : Str)
    (m : GoMap Str) (h1 : st.ssmSvc = true) (h2 : st.kmsSvc = true)
    (hc : mapGet p st.ssmPathCache = some m) :
    (ssmValue aws k d st).2.ssmSvc = true ∧ (ssmValue aws k d st).2.kmsSvc = true ∧
    mapGet p (ssmValue aws k d st).2.ssmPathCache = some m := by
  simp only [ssmValue, bootstrapClients_ready aws st h1 h2]
  cases mapGet k st.ssmCache with
  | some val => exact ⟨h1, h2, hc⟩
  | none =>
    cases aws.getParameter k d with
    | error e => exact ⟨h1, h2, hc⟩
    | ok value => exact ⟨h1, h2, hc⟩

theorem ssmJSON_keeps_path {J : Type} (aws : Aws J) (k : Str) (d : Bool) (st : Fn) (p : Str)
    (m : GoMap Str) (h1 : st.ssmSvc = true) (h2 : st.kmsSvc = true)
    (hc : mapGet p st.ssmPathCache = some m) :
    (ssmJSON aws k d st).2.ssmSvc = true ∧ (ssmJSON aws k d st).2.kmsSvc = true ∧
    mapGet p (ssmJSON aws k d st).2.ssmPathCache = some m := by
  have hv := ssmValue_keeps_path aws k d st p m h1 h2 hc
  simp only [ssmJSON, bootstrapClients_ready aws st h1 h2]
  cases hr : ssmValue aws k d st with
  | mk res st2 =>
    rw [hr] at hv
    cases res with
    | err e => exact hv
    | panic msg => exact hv
    | ok data =>
      simp only []
      cases aws.jsonUnmarshal data with
      | error e => exact hv
      | ok j => exact hv

theorem ssmPath_keeps_path {J : Type} (aws : Aws J) (q : Str) (d r : Bool) (st : Fn) (p : Str)
    (m : GoMap Str) (h1 : st.ssmSvc = true) (h2 : st.kmsSvc = true)
    (hc : mapGet p st.ssmPathCache = some m) :
    (ssmPath aws q d r st).2.ssmSvc = true ∧ (ssmPath aws q d r st).2.kmsSvc = true ∧
    mapGet p (ssmPath aws q d r st).2.ssmPathCache = some m := by
  simp only [ssmPath, bootstrapClients_ready aws st h1 h2]
  cases hq : mapGet q st.ssmPathCache with
  | some val => exact ⟨h1, h2, hc⟩
  | none =>
    have hne : p ≠ q := by
      intro e
      rw [e, hq] at hc
      cases hc
    cases aws.getParametersByPathPages q r d with
    | error e => exact ⟨h1, h2, hc⟩
    | ok pages =>
      refine ⟨h1, h2, ?_⟩
      simp only []
      rw [mapGet_mapSet_ne p q hne]
      exact hc

theorem kmsValue_keeps_path {J : Type} (aws : Aws J) (c : Str) (st : Fn) (p : Str)
    (m : GoMap Str) (h1 : st.ssmSvc = true) (h2 : st.kmsSvc = true)
    (hc : mapGet p st.ssmPathCache = some m) :
    (kmsValue aws c st).2.ssmSvc = true ∧ (kmsValue aws c st).2.kmsSvc = true ∧
    mapGet p (kmsValue aws c st).2.ssmPathCache = some m := by
  simp only [kmsValue, bootstrapClients_ready aws st h1 h2]
  cases mapGet c st.kmsCache with
  | some val => exact ⟨h1, h2, hc⟩
  | none =>
    cases aws.base64Decode c with
    | error e => exact ⟨h1, h2, hc⟩
    | ok blob =>
      simp only []
      cases aws.decrypt blob with
      | error e => exact ⟨h1, h2, hc⟩
      | ok plain => exact ⟨h1, h2, hc⟩

theorem afterCalls_keeps_path {J : Type} (later : List (Aws J × TemplateCall)) (p : Str)
    (m : GoMap Str) :
    ∀ st : Fn, st.ssmSvc = true → st.kmsSvc = true → mapGet p st.ssmPathCache = some m →
      (afterCalls later st).ssmSvc = true ∧ (afterCalls later st).kmsSvc = true ∧
      mapGet p (afterCalls later st).ssmPathCache = some m := by
  induction later with
  | nil => intro st h1 h2 hc; exact ⟨h1, h2, hc⟩
  | cons ac rest ih =>
    intro st h1 h2 hc
    obtain ⟨aws, c⟩ := ac
    simp only [afterCalls]
    have hstep : (afterCall aws c st).ssmSvc = true ∧ (afterCall aws c st).kmsSvc = true ∧
        mapGet p (afterCall aws c st).ssmPathCache = some m := by
      cases c with
      | ssm k d => exact ssmValue_keeps_path aws k d st p m h1 h2 hc
      | ssmJSON k d => exact ssmJSON_keeps_path aws k d st p m h1 h2 hc
      | ssmPath q d r => exact ssmPath_keeps_path aws q d r st p m h1 h2 hc
      | kms c => exact kmsValue_keeps_path aws c st p m h1 h2 hc
    exact ih _ hstep.1 hstep.2.1 hstep.2.2

/-- C8: after `ssmPath p d1 r1` returned a mapping, every later
`ssmPath p d2 r2`, with any flags and after any sequence of template-function
calls in between, returns that same mapping and leaves the state, request
record included, unchanged: no list-by-path request is sent again. -/
theorem ssmPath_cached_by_path_alone {J : Type} (aws1 aws2 : Aws J) (p : Str) (d1 r1 d2 r2 : Bool)
    (st st1 : Fn) (m : GoMap Str) (later : List (Aws J × TemplateCall))
    (h : ssmPath aws1 p d1 r1 st = (.ok m, st1)) :
    ssmPath aws2 p d2 r2 (afterCalls later st1) = (.ok m, afterCalls later st1) := by
  obtain ⟨hs1, hs2, hc⟩ := ssmPath_ok aws1 p d1 r1 st st1 m h
  obtain ⟨k1, k2, kc⟩ := afterCalls_keeps_path later p m st1 hs1 hs2 hc
  exact ssmPath_hit aws2 p d2 r2 _ m k1 k2 kc

/-- Witness for C8: a first lookup without decryption, other lookups in
between, then a recursive decrypting lookup of the same path. -/
theorem ssmPath_cached_by_path_alone_witness :
    ssmPath demoAws "app".toList true true
        (afterCalls [(demoAws, TemplateCall.ssm "db/pass".toList true),
                     (demoAws, TemplateCall.ssmPath "other".toList true false)]
          (ssmPath demoAws "app".toList false false Fn.init).2)
      = (.ok [("app/key".toList, "cipher".toList)],
         afterCalls [(demoAws, TemplateCall.ssm "db/pass".toList true),
                     (demoAws, TemplateCall.ssmPath "other".toList true false)]
          (ssmPath demoAws "app".toList false false Fn.init).2) :=
  ssmPath_cached_by_path_alone demoAws demoAws "app".toList false false true true Fn.init
    (ssmPath demoAws "app".toList false false Fn.init).2 [("app/key".toList, "cipher".toList)]
    [(demoAws, TemplateCall.ssm "db/pass".toList true),
     (demoAws, TemplateCall.ssmPath "other".toList true false)] (by decide)

end EcsTemplate
